import Mathlib

/-!
Verification development for the chat message filter engine
(`chat_filter.py`): a shallow embedding of the data model and the
operations of `ChatMessageFilter`, followed by theorems settling the
frozen specification claims.

Modelling conventions:
* Python strings are modelled as Lean `String` / `List Char`; the
  character-level operations (`str.lower`, `str.strip`, the regular
  expressions `[^a-zA-Z]` and `\b\w+\b`) are modelled over ASCII,
  matching the character classes the source regexes use.
* The Python `set` of curse words is modelled as a duplicate-free
  `List String`; only membership and emptiness matter to the engine.
* JSON documents handed to the loader are modelled by the inductive
  `PyJson`; a missing or unparsable file is a separate `LoadSource`
  case, since `json.load` never yields a value for those.
* Exceptions are modelled with `Except String`; methods that mutate the
  engine return the updated `Engine` explicitly (on an exception the
  engine returned is the input engine, mirroring the fact that the
  Python code raises before any field assignment).
-/

namespace ChatFilter

/-! ### Character classes (ASCII, as used by the source regexes) -/

def isAsciiUpper (c : Char) : Bool := 65 ≤ c.toNat && c.toNat ≤ 90

def isAsciiLower (c : Char) : Bool := 97 ≤ c.toNat && c.toNat ≤ 122

def isAsciiLetter (c : Char) : Bool := isAsciiUpper c || isAsciiLower c

def isAsciiDigit (c : Char) : Bool := 48 ≤ c.toNat && c.toNat ≤ 57

/-- Word character of the regex `\w` (restricted to ASCII): letter, digit
or underscore (code 95). -/
def isWordChar (c : Char) : Bool := isAsciiLetter c || isAsciiDigit c || c.toNat == 95

/-- Whitespace stripped by Python `str.strip()` (ASCII part): space, tab,
newline, carriage return, vertical tab, form feed. -/
def isPySpace (c : Char) : Bool :=
  c.toNat == 32 || c.toNat == 9 || c.toNat == 10 || c.toNat == 13 ||
    c.toNat == 11 || c.toNat == 12

/-- Python `str.lower()` on one character (ASCII range `A`-`Z`,
codes 65-90, mapped 32 codepoints up). -/
def pyToLower (c : Char) : Char :=
  if 65 ≤ c.toNat ∧ c.toNat ≤ 90 then Char.ofNat (c.toNat + 32) else c

/-! ### Python string helpers -/

/-- Remove trailing characters satisfying `isPySpace`. -/
def stripEnd (l : List Char) : List Char :=
  (l.reverse.dropWhile isPySpace).reverse

/-- Python `str.strip()` over a character list. -/
def pyStripL (l : List Char) : List Char :=
  stripEnd (l.dropWhile isPySpace)

/-- Python `s.lower().strip()`, the normalization applied to every word
stored in the curse-word set (`add_curse_word`, `remove_curse_word` and
the loader all use exactly this). -/
def pyLowerStrip (s : String) : String :=
  String.mk (pyStripL (s.toList.map pyToLower))

/-! ### The word normalizer and the variant detector -/

/-- Source `_normalize_word`: `re.sub(r'[^a-zA-Z]', '', word.lower())` —
lowercase, then keep only ASCII letters. -/
def normalizeL (w : List Char) : List Char :=
  (w.map pyToLower).filter isAsciiLetter

def normalize_word (w : String) : String :=
  String.mk (normalizeL w.toList)

/-- The fixed character-substitution table of `_detect_variations`,
in the source's iteration order. -/
def substitutionTable : List (Char × Char) :=
  [('y', 'u'), ('1', 'i'), ('3', 'e'), ('4', 'a'), ('5', 's'),
   ('7', 't'), ('@', 'a'), ('$', 's'), ('!', 'i')]

/-- Sequentially apply `str.replace(src, dst)` for every entry of the
substitution table; each `replace` rewrites every occurrence. -/
def applySubsts (l : List Char) : List Char :=
  substitutionTable.foldl
    (fun acc p => acc.map fun c => if c = p.1 then p.2 else c) l

/-- Source `_detect_variations`: lowercase, apply the substitution
table, normalize, and test membership in the curse-word set. -/
def detect_variations (bl : List String) (w : List Char) : Bool :=
  bl.contains (String.mk (normalizeL (applySubsts (w.map pyToLower))))

/-! ### Filter levels and the match decision -/

inductive FilterLevel where
  | strict
  | moderate
  | lenient
deriving DecidableEq

def FilterLevel.value : FilterLevel → String
  | .strict => "strict"
  | .moderate => "moderate"
  | .lenient => "lenient"

/-- Source `_should_filter_word`: empty words are never filtered; a
direct normalized match always filters; under STRICT or MODERATE the
variant detector is also consulted. -/
def should_filter_word (bl : List String) (lvl : FilterLevel) (w : List Char) : Bool :=
  if w.isEmpty then false
  else if bl.contains (String.mk (normalizeL w)) then true
  else
    match lvl with
    | .strict => detect_variations bl w
    | .moderate => detect_variations bl w
    | .lenient => false

/-! ### Tokenizer: maximal runs of word characters (`\b\w+\b`) -/

/-- Split a character list into maximal runs of characters of equal
`isWordChar` class, each tagged with that class. -/
def chunks : List Char → List (Bool × List Char)
  | [] => []
  | c :: cs =>
    match chunks cs with
    | [] => [(isWordChar c, [c])]
    | (b, r) :: rest =>
      if isWordChar c = b then (b, c :: r) :: rest
      else (isWordChar c, [c]) :: (b, r) :: rest

/-- The tokens of a message: the word-class runs, in order
(`re.findall(r'\b\w+\b', message)`). -/
def tokensL (l : List Char) : List (List Char) :=
  (chunks l).filterMap fun p => if p.1 then some p.2 else none

/-- Rewrite one run: an offending token becomes the replacement
character repeated (length-preserving or fixed three); everything else
is copied through. -/
def rwChunk (bl : List String) (lvl : FilterLevel) (ch : Char)
    (preserveLength : Bool) (p : Bool × List Char) : List Char :=
  if p.1 && should_filter_word bl lvl p.2 then
    if preserveLength then List.replicate p.2.length ch else List.replicate 3 ch
  else p.2

/-- Source `re.sub(r'\b\w+\b', replace_word, message)`. -/
def rewriteL (bl : List String) (lvl : FilterLevel) (ch : Char)
    (preserveLength : Bool) (l : List Char) : List Char :=
  ((chunks l).map (rwChunk bl lvl ch preserveLength)).flatten

/-! ### The JSON document model and the loader -/

inductive PyJson where
  | str (s : String)
  | int (n : Int)
  | bool (b : Bool)
  | null
  | list (xs : List PyJson)
  | dict (kvs : List (String × PyJson))

mutual

/-- Python `repr` (also `str`) of a non-string JSON value. -/
def pyRepr : PyJson → String
  | .str s => "'" ++ s ++ "'"
  | .int n => toString n
  | .bool b => if b then "True" else "False"
  | .null => "None"
  | .list xs => "[" ++ pyReprItems xs ++ "]"
  | .dict kvs => "\x7b" ++ pyReprPairs kvs ++ "\x7d"

def pyReprItems : List PyJson → String
  | [] => ""
  | [x] => pyRepr x
  | x :: y :: xs => pyRepr x ++ ", " ++ pyReprItems (y :: xs)

def pyReprPairs : List (String × PyJson) → String
  | [] => ""
  | [(k, v)] => "'" ++ k ++ "': " ++ pyRepr v
  | (k, v) :: y :: xs => "'" ++ k ++ "': " ++ pyRepr v ++ ", " ++ pyReprPairs (y :: xs)

end

/-- Python `str(value)`. -/
def pyStr : PyJson → String
  | .str s => s
  | j => pyRepr j

/-- Python truthiness of a JSON value. -/
def pyTruthy : PyJson → Bool
  | .str s => s != ""
  | .int n => n != 0
  | .bool b => b
  | .null => false
  | .list xs => !xs.isEmpty
  | .dict kvs => !kvs.isEmpty

/-- What the constructor finds at `curse_words_file`: a missing file, a
file that is not valid JSON, or a parsed JSON document. -/
inductive LoadSource where
  | missing
  | malformed
  | doc (j : PyJson)

/-- One comprehension `set(str(word).lower().strip() for word in data if word)`. -/
def loadEntries (xs : List PyJson) : List String :=
  ((xs.filter pyTruthy).map fun j => pyLowerStrip (pyStr j)).dedup

/-- The fixed preference order of list-bearing keys. -/
def recognizedKeys : List String :=
  ["words", "curse", "curse_words", "bad_words", "profanity"]

/-- First recognized key whose value is a list (the `for ... break` loop). -/
def findListKey (kvs : List (String × PyJson)) : Option (List PyJson) :=
  recognizedKeys.findSome? fun k =>
    match kvs.lookup k with
    | some (PyJson.list xs) => some xs
    | _ => none

/-- Source `_load_curse_words`: produce the curse-word set or raise. -/
def load_curse_words : LoadSource → Except String (List String)
  | .missing => .error "Curse words file not found"
  | .malformed => .error "Invalid JSON format in curse words file"
  | .doc (PyJson.list xs) =>
    let ws := loadEntries xs
    if ws.isEmpty then .error "No curse words found in file" else .ok ws
  | .doc (PyJson.dict kvs) =>
    let ws :=
      match findListKey kvs with
      | some xs => loadEntries xs
      | none =>
        (((kvs.map Prod.fst).filter (fun k => k != "")).map
          (fun k => pyLowerStrip k)).dedup
    if ws.isEmpty then .error "No curse words found in file" else .ok ws
  | .doc _ => .error "Invalid JSON format - must be list or dict"

/-! ### The engine -/

structure Engine where
  filter_level : FilterLevel
  curse_words : List String
  replacement_char : Char
  max_message_length : Nat
  min_message_length : Nat
  total_messages_processed : Nat
  total_words_filtered : Nat
deriving DecidableEq

/-- The constructor `__init__`: defaults, then attempt to load; on any
load failure the curse-word set stays empty (no default words). -/
def mkEngine (src : LoadSource) (lvl : FilterLevel) : Engine :=
  { filter_level := lvl
    curse_words := match load_curse_words src with
      | .ok ws => ws
      | .error _ => []
    replacement_char := '*'
    max_message_length := 1000
    min_message_length := 1
    total_messages_processed := 0
    total_words_filtered := 0 }

/-- Source `add_curse_word` on the word set alone: raise on an empty
word, otherwise insert `word.lower().strip()` and report novelty. -/
def addWordBL (bl : List String) (w : String) : Except String (Bool × List String) :=
  if w = "" then .error "Word must be a non-empty string"
  else
    let wl := pyLowerStrip w
    if bl.contains wl then .ok (false, bl) else .ok (true, bl ++ [wl])

/-- Source `remove_curse_word` on the word set alone: never raises. -/
def removeWordBL (bl : List String) (w : String) : Bool × List String :=
  if w = "" then (false, bl)
  else
    let wl := pyLowerStrip w
    if bl.contains wl then (true, bl.filter (fun x => x != wl)) else (false, bl)

def add_curse_word (e : Engine) (w : String) : Except String (Bool × Engine) :=
  match addWordBL e.curse_words w with
  | .error msg => .error msg
  | .ok (b, bl) => .ok (b, { e with curse_words := bl })

def remove_curse_word (e : Engine) (w : String) : Bool × Engine :=
  let r := removeWordBL e.curse_words w
  (r.1, { e with curse_words := r.2 })

def set_replacement_char (e : Engine) (s : String) : Except String Engine :=
  match s.toList with
  | [c] => .ok { e with replacement_char := c }
  | _ => .error "Replacement character must be exactly one character"

def set_filter_level (e : Engine) (lvl : FilterLevel) : Engine :=
  { e with filter_level := lvl }

/-- Source `detect_inappropriate_words`: empty input yields `[]`;
otherwise the offending tokens, in order, as originally spelled. -/
def detect_inappropriate_words (e : Engine) (msg : String) : List String :=
  if msg = "" then []
  else
    ((tokensL msg.toList).filter
      (should_filter_word e.curse_words e.filter_level)).map String.mk

/-- Source `is_message_clean`. -/
def isCleanMessage (e : Engine) (msg : String) : Bool :=
  (detect_inappropriate_words e msg).length == 0

/-- Source `filter_message`: validate, then rewrite and update the
running counters. On a raise the engine is returned unchanged (the
source raises before touching any field). -/
def filter_message (e : Engine) (msg : String) (preserveLength : Bool) :
    Except String String × Engine :=
  if msg = "" then (.error "Message must be a non-empty string", e)
  else if e.max_message_length < msg.length then
    (.error "Message too long", e)
  else if msg.length < e.min_message_length then
    (.error "Message too short", e)
  else
    let cs := msg.toList
    let cnt := (tokensL cs).countP (should_filter_word e.curse_words e.filter_level)
    (.ok (String.mk (rewriteL e.curse_words e.filter_level e.replacement_char
        preserveLength cs)),
      { e with
        total_messages_processed := e.total_messages_processed + 1
        total_words_filtered := e.total_words_filtered + cnt })

structure FilterReport where
  original_message : String
  filtered_message : String
  inappropriate_words : List String
  total_words : Nat
  filtered_words_count : Nat
  is_clean : Bool
  filter_level : String
  message_length : Option Nat
deriving DecidableEq

/-- Source `get_filter_report`: a vacuous report on empty input,
otherwise detection plus `filter_message` (whose exception propagates). -/
def get_filter_report (e : Engine) (msg : String) :
    Except String FilterReport × Engine :=
  if msg = "" then
    (.ok { original_message := ""
           filtered_message := ""
           inappropriate_words := []
           total_words := 0
           filtered_words_count := 0
           is_clean := true
           filter_level := e.filter_level.value
           message_length := none }, e)
  else
    let inappropriate := detect_inappropriate_words e msg
    match filter_message e msg true with
    | (.ok filtered, e') =>
      (.ok { original_message := msg
             filtered_message := filtered
             inappropriate_words := inappropriate
             total_words := (tokensL msg.toList).length
             filtered_words_count := inappropriate.length
             is_clean := inappropriate.length == 0
             filter_level := e.filter_level.value
             message_length := some msg.length }, e')
    | (.error err, e') => (.error err, e')

def reset_statistics (e : Engine) : Engine :=
  { e with total_messages_processed := 0, total_words_filtered := 0 }

/-- Number of offending tokens of a message, as counted by
`filter_message`'s `replace_word` callback. -/
def flaggedCount (e : Engine) (msg : String) : Nat :=
  (tokensL msg.toList).countP (should_filter_word e.curse_words e.filter_level)

/-- A sequence of `filter_message` calls, all of which must succeed. -/
def runFilters : Engine → List (String × Bool) → Option Engine
  | e, [] => some e
  | e, (m, b) :: rest =>
    match filter_message e m b with
    | (.ok _, e') => runFilters e' rest
    | (.error _, _) => none

/-- Curse-word sets reachable through the engine's own operations:
construction from some source, successful `add_curse_word` steps and
`remove_curse_word` steps. -/
inductive ReachableBL : List String → Prop
  | load (src : LoadSource) (lvl : FilterLevel) :
      ReachableBL (mkEngine src lvl).curse_words
  | add (bl : List String) (w : String) (ok : Bool) (bl' : List String) :
      ReachableBL bl → addWordBL bl w = .ok (ok, bl') → ReachableBL bl'
  | remove (bl : List String) (w : String) :
      ReachableBL bl → ReachableBL (removeWordBL bl w).2

/-- Modelled from the spec (section 4.2) for the refinement claim about
the normalizer: strip every character that is not an ASCII letter, then
lowercase. -/
def refNormalize (w : List Char) : List Char :=
  (w.filter isAsciiLetter).map pyToLower

/-- The class-boundary condition: the list is empty or starts with a
character whose word-class differs from `b`. -/
def headNotClass (b : Bool) : List Char → Prop
  | [] => True
  | d :: _ => isWordChar d ≠ b

/-! ### Lemmas about the chunk decomposition -/

theorem chunks_flatten (l : List Char) : ((chunks l).map Prod.snd).flatten = l := by
  induction l with
  | nil => rfl
  | cons c cs ih =>
    rw [chunks]
    cases h : chunks cs with
    | nil =>
      rw [h] at ih
      simp only [List.map_nil, List.flatten_nil] at ih
      simp [← ih]
    | cons p rest =>
      obtain ⟨b, r⟩ := p
      rw [h] at ih
      by_cases hb : isWordChar c = b
      · simp only [hb, if_true]
        simpa using ih
      · simp only [hb, if_false]
        simpa using ih

theorem chunks_cons_head (c : Char) (cs : List Char) :
    ∃ r rest, chunks (c :: cs) = (isWordChar c, c :: r) :: rest := by
  rw [chunks]
  cases h : chunks cs with
  | nil => exact ⟨[], [], rfl⟩
  | cons p rest =>
    obtain ⟨b, r⟩ := p
    by_cases hb : isWordChar c = b
    · exact ⟨r, rest, by simp [hb]⟩
    · exact ⟨[], (b, r) :: rest, by simp [hb]⟩

theorem chunks_sound (l : List Char) :
    ∀ p ∈ chunks l, p.2 ≠ [] ∧ ∀ c ∈ p.2, isWordChar c = p.1 := by
  induction l with
  | nil => simp [chunks]
  | cons c cs ih =>
    intro p hp
    rw [chunks] at hp
    cases h : chunks cs with
    | nil =>
      rw [h] at hp
      simp only [List.mem_singleton] at hp
      subst hp
      simp
    | cons q rest =>
      obtain ⟨b, r⟩ := q
      rw [h] at hp
      have hq := ih (b, r) (by rw [h]; exact List.mem_cons_self _ _)
      by_cases hb : isWordChar c = b
      · simp only [hb, if_true, List.mem_cons] at hp
        rcases hp with hp | hp
        · subst hp
          refine ⟨by simp, ?_⟩
          intro a ha
          rcases List.mem_cons.mp ha with ha | ha
          · subst ha; exact hb
          · exact hq.2 a ha
        · exact ih _ (by rw [h]; exact List.mem_cons_of_mem _ hp)
      · simp only [hb, if_false, List.mem_cons] at hp
        rcases hp with hp | hp
        · subst hp
          exact ⟨by simp, by intro a ha; simp only [List.mem_singleton] at ha; subst ha; rfl⟩
        · rcases hp with hp | hp
          · subst hp
            exact ih _ (by rw [h]; exact List.mem_cons_self _ _)
          · exact ih _ (by rw [h]; exact List.mem_cons_of_mem _ hp)

/-- Peel the first maximal run off a nonempty list. -/
theorem chunks_decomp (c : Char) (cs : List Char) :
    ∃ x y, c :: cs = x ++ y ∧ x ≠ [] ∧ (∀ a ∈ x, isWordChar a = isWordChar c) ∧
      headNotClass (isWordChar c) y ∧
      chunks (c :: cs) = (isWordChar c, x) :: chunks y ∧
      y.length < (c :: cs).length := by
  induction cs generalizing c with
  | nil =>
    refine ⟨[c], [], by simp, by simp, ?_, trivial, by rw [chunks]; rfl, by simp⟩
    intro a ha
    simp only [List.mem_singleton] at ha
    subst ha; rfl
  | cons d ds ih =>
    obtain ⟨x', y', hsplit, hne, hcls, hhead, hch, hlen⟩ := ih d
    by_cases hb : isWordChar c = isWordChar d
    · refine ⟨c :: x', y', by simp [← hsplit], by simp, ?_, ?_, ?_, ?_⟩
      · intro a ha
        rcases List.mem_cons.mp ha with ha | ha
        · subst ha; rfl
        · rw [hcls a ha, hb]
      · rw [hb]; exact hhead
      · rw [chunks, hch]; simp [hb]
      · have := hlen
        simp only [List.length_cons] at *
        omega
    · refine ⟨[c], d :: ds, by simp, by simp, ?_, ?_, ?_, by simp⟩
      · intro a ha
        simp only [List.mem_singleton] at ha
        subst ha; rfl
      · exact fun h => hb h.symm
      · rw [chunks, hch]; simp only [if_neg hb]

/-- Appending a uniform run in front of a list of the other class adds
one chunk. -/
theorem chunks_append_of_headNot (x y : List Char) (b : Bool)
    (hne : x ≠ []) (hx : ∀ a ∈ x, isWordChar a = b) (hy : headNotClass b y) :
    chunks (x ++ y) = (b, x) :: chunks y := by
  induction x with
  | nil => exact absurd rfl hne
  | cons c x' ih =>
    have hc : isWordChar c = b := hx c (List.mem_cons_self _ _)
    cases x' with
    | nil =>
      simp only [List.cons_append, List.nil_append]
      cases y with
      | nil => rw [chunks]; simp [chunks, hc]
      | cons d y' =>
        have hd : isWordChar d ≠ b := hy
        obtain ⟨r, rest, hcy⟩ := chunks_cons_head d y'
        rw [chunks, hcy]
        simp only [if_neg (fun h : isWordChar c = isWordChar d => hd (h ▸ hc))]
        rw [← hcy, hc]
    | cons c2 x'' =>
      have ih' := ih (by simp) (fun a ha => hx a (List.mem_cons_of_mem _ ha))
      simp only [List.cons_append] at ih' ⊢
      rw [chunks, ih']
      simp [hc]

/-- Appending a uniform run in front of a list of the same class merges
into the first chunk. -/
theorem chunks_append_of_headSame (x y : List Char) (b : Bool) (r : List Char)
    (cs' : List (Bool × List Char))
    (hx : ∀ a ∈ x, isWordChar a = b) (hy : chunks y = (b, r) :: cs') :
    chunks (x ++ y) = (b, x ++ r) :: cs' := by
  induction x with
  | nil => simpa using hy
  | cons c x' ih =>
    have hc : isWordChar c = b := hx c (List.mem_cons_self _ _)
    have ih' := ih (fun a ha => hx a (List.mem_cons_of_mem _ ha))
    simp only [List.cons_append]
    rw [chunks, ih']
    simp [hc]

/-! ### Lemmas about the rewrite pass -/

theorem rwChunk_nonword (bl : List String) (lvl : FilterLevel) (ch : Char)
    (pr : Bool) (t : List Char) : rwChunk bl lvl ch pr (false, t) = t := by
  simp [rwChunk]

theorem rewriteL_nil (bl : List String) (lvl : FilterLevel) (ch : Char) (pr : Bool) :
    rewriteL bl lvl ch pr [] = [] := rfl

theorem rewriteL_eq_of_chunks (bl : List String) (lvl : FilterLevel) (ch : Char)
    (pr : Bool) (m y : List Char) (b : Bool) (x : List Char)
    (h : chunks m = (b, x) :: chunks y) :
    rewriteL bl lvl ch pr m = rwChunk bl lvl ch pr (b, x) ++ rewriteL bl lvl ch pr y := by
  unfold rewriteL
  rw [h, List.map_cons, List.flatten_cons]

/-- A nonempty non-word run passes through the rewrite unchanged and
does not disturb the rest. -/
theorem rewriteL_nonword_append (bl : List String) (lvl : FilterLevel) (ch : Char)
    (pr : Bool) (x y : List Char)
    (hne : x ≠ []) (hx : ∀ a ∈ x, isWordChar a = false) :
    rewriteL bl lvl ch pr (x ++ y) = x ++ rewriteL bl lvl ch pr y := by
  cases y with
  | nil =>
    have h := chunks_append_of_headNot x [] false hne hx trivial
    rw [List.append_nil] at h
    rw [List.append_nil, rewriteL_eq_of_chunks bl lvl ch pr x [] false x h,
      rwChunk_nonword, rewriteL_nil, List.append_nil]
  | cons d y' =>
    by_cases hd : isWordChar d = false
    · obtain ⟨r, rest, hcy⟩ := chunks_cons_head d y'
      rw [hd] at hcy
      have h := chunks_append_of_headSame x (d :: y') false (d :: r) rest hx hcy
      unfold rewriteL
      rw [h, hcy, List.map_cons, List.map_cons, List.flatten_cons, List.flatten_cons,
        rwChunk_nonword, rwChunk_nonword, List.append_assoc]
    · have hd' : isWordChar d = true := by
        cases hw : isWordChar d
        · exact absurd hw hd
        · rfl
      have h := chunks_append_of_headNot x (d :: y') false hne hx
        (by simp [headNotClass, hd'])
      rw [rewriteL_eq_of_chunks bl lvl ch pr _ _ false x h, rwChunk_nonword]

/-- A nonempty word run followed by a class boundary is rewritten as one
token. -/
theorem rewriteL_word_append (bl : List String) (lvl : FilterLevel) (ch : Char)
    (pr : Bool) (x y : List Char)
    (hne : x ≠ []) (hx : ∀ a ∈ x, isWordChar a = true) (hy : headNotClass true y) :
    rewriteL bl lvl ch pr (x ++ y) =
      rwChunk bl lvl ch pr (true, x) ++ rewriteL bl lvl ch pr y := by
  have h := chunks_append_of_headNot x y true hne hx hy
  exact rewriteL_eq_of_chunks bl lvl ch pr _ _ true x h

/-- The rewrite does not change the class of the first character. -/
theorem rewriteL_headNot (bl : List String) (lvl : FilterLevel) (ch : Char)
    (pr : Bool) (y : List Char) (h : headNotClass true y) :
    headNotClass true (rewriteL bl lvl ch pr y) := by
  cases y with
  | nil => exact trivial
  | cons d y' =>
    have hd : isWordChar d ≠ true := h
    obtain ⟨r, rest, hcy⟩ := chunks_cons_head d y'
    have hd' : isWordChar d = false := by
      cases hw : isWordChar d
      · rfl
      · exact absurd hw hd
    rw [hd'] at hcy
    unfold rewriteL
    rw [hcy, List.map_cons, List.flatten_cons, rwChunk_nonword]
    exact h

/-- Idempotence of the length-preserving rewrite, by strong induction on
the message length: each run of the once-rewritten text is either an
untouched clean run or a constant run of the replacement character, and
rewriting either one reproduces it. -/
theorem rewriteL_idem_aux (bl : List String) (lvl : FilterLevel) (ch : Char) :
    ∀ n (m : List Char), m.length ≤ n →
      rewriteL bl lvl ch true (rewriteL bl lvl ch true m) = rewriteL bl lvl ch true m := by
  intro n
  induction n with
  | zero =>
    intro m hm
    have : m = [] := List.length_eq_zero.mp (Nat.le_zero.mp hm)
    subst this
    rfl
  | succ n ih =>
    intro m hm
    cases m with
    | nil => rfl
    | cons c cs =>
      obtain ⟨x, y, hsplit, hne, hcls, hhead, hch, hlen⟩ := chunks_decomp c cs
      have hy : y.length ≤ n := by
        simp only [List.length_cons] at hlen hm
        omega
      have ihy := ih y hy
      have hrw : rewriteL bl lvl ch true (c :: cs) =
          rwChunk bl lvl ch true (isWordChar c, x) ++ rewriteL bl lvl ch true y :=
        rewriteL_eq_of_chunks bl lvl ch true _ _ _ x hch
      rw [hrw]
      cases hb : isWordChar c with
      | false =>
        rw [hb] at hcls
        rw [rwChunk_nonword]
        rw [rewriteL_nonword_append bl lvl ch true x _ hne hcls, ihy]
      | true =>
        rw [hb] at hcls hhead
        cases hf : should_filter_word bl lvl x with
        | false =>
          have hx : rwChunk bl lvl ch true (true, x) = x := by simp [rwChunk, hf]
          rw [hx]
          rw [rewriteL_word_append bl lvl ch true x _ hne hcls
            (rewriteL_headNot bl lvl ch true y hhead), ihy, hx]
        | true =>
          have hx : rwChunk bl lvl ch true (true, x) = List.replicate x.length ch := by
            simp [rwChunk, hf]
          rw [hx]
          have hxlen : 0 < x.length := List.length_pos.mpr hne
          have hne2 : List.replicate x.length ch ≠ [] := by
            intro h
            have h2 := congrArg List.length h
            rw [List.length_replicate, List.length_nil] at h2
            exact hne (List.length_eq_zero.mp h2)
          cases hwc : isWordChar ch with
          | false =>
            have hall : ∀ a ∈ List.replicate x.length ch, isWordChar a = false := by
              intro a ha
              rw [List.eq_of_mem_replicate ha]
              exact hwc
            rw [rewriteL_nonword_append bl lvl ch true _ _ hne2 hall, ihy]
          | true =>
            have hall : ∀ a ∈ List.replicate x.length ch, isWordChar a = true := by
              intro a ha
              rw [List.eq_of_mem_replicate ha]
              exact hwc
            rw [rewriteL_word_append bl lvl ch true _ _ hne2 hall
              (rewriteL_headNot bl lvl ch true y hhead), ihy]
            congr 1
            unfold rwChunk
            simp only [List.length_replicate]
            split
            · rfl
            · rfl

theorem rewriteL_idem (bl : List String) (lvl : FilterLevel) (ch : Char) (m : List Char) :
    rewriteL bl lvl ch true (rewriteL bl lvl ch true m) = rewriteL bl lvl ch true m :=
  rewriteL_idem_aux bl lvl ch m.length m (Nat.le_refl _)

/-- The length-preserving rewrite preserves the message length. -/
theorem rewriteL_length (bl : List String) (lvl : FilterLevel) (ch : Char)
    (m : List Char) : (rewriteL bl lvl ch true m).length = m.length := by
  unfold rewriteL
  rw [List.length_flatten, List.map_map]
  have h1 : ((chunks m).map (List.length ∘ rwChunk bl lvl ch true)) =
      ((chunks m).map (List.length ∘ Prod.snd)) := by
    apply List.map_congr_left
    intro p _
    simp only [Function.comp_apply]
    unfold rwChunk
    split
    · simp
    · rfl
  rw [h1, ← List.map_map, ← List.length_flatten, chunks_flatten]

/-! ### Lemmas about the token list -/

theorem tokensL_nil : tokensL [] = [] := rfl

theorem tokensL_eq_of_chunks (m y : List Char) (b : Bool) (x : List Char)
    (h : chunks m = (b, x) :: chunks y) :
    tokensL m = (if b then [x] else []) ++ tokensL y := by
  unfold tokensL
  rw [h, List.filterMap_cons]
  cases b
  · simp
  · simp

theorem tokensL_nonword_append (x y : List Char)
    (hne : x ≠ []) (hx : ∀ a ∈ x, isWordChar a = false) :
    tokensL (x ++ y) = tokensL y := by
  cases y with
  | nil =>
    have h := chunks_append_of_headNot x [] false hne hx trivial
    rw [List.append_nil] at h
    rw [List.append_nil, tokensL_eq_of_chunks x [] false x h]
    simp
  | cons d y' =>
    by_cases hd : isWordChar d = false
    · obtain ⟨r, rest, hcy⟩ := chunks_cons_head d y'
      rw [hd] at hcy
      have h := chunks_append_of_headSame x (d :: y') false (d :: r) rest hx hcy
      unfold tokensL
      rw [h, hcy, List.filterMap_cons, List.filterMap_cons]
      simp
    · have hd' : isWordChar d = true := by
        cases hw : isWordChar d
        · exact absurd hw hd
        · rfl
      have h := chunks_append_of_headNot x (d :: y') false hne hx
        (by simp [headNotClass, hd'])
      rw [tokensL_eq_of_chunks _ _ false x h]
      simp

theorem tokensL_word_append (x y : List Char)
    (hne : x ≠ []) (hx : ∀ a ∈ x, isWordChar a = true) (hy : headNotClass true y) :
    tokensL (x ++ y) = x :: tokensL y := by
  have h := chunks_append_of_headNot x y true hne hx hy
  rw [tokensL_eq_of_chunks _ _ true x h]
  simp

/-- When the replacement character is not a word character, no token of
the rewritten text is offending. -/
theorem tokensL_rewriteL_clean_aux (bl : List String) (lvl : FilterLevel) (ch : Char)
    (hwc : isWordChar ch = false) :
    ∀ n (m : List Char), m.length ≤ n →
      ∀ t ∈ tokensL (rewriteL bl lvl ch true m), should_filter_word bl lvl t = false := by
  intro n
  induction n with
  | zero =>
    intro m hm
    have : m = [] := List.length_eq_zero.mp (Nat.le_zero.mp hm)
    subst this
    simp [rewriteL_nil, tokensL_nil]
  | succ n ih =>
    intro m hm
    cases m with
    | nil => simp [rewriteL_nil, tokensL_nil]
    | cons c cs =>
      obtain ⟨x, y, hsplit, hne, hcls, hhead, hch, hlen⟩ := chunks_decomp c cs
      have hy : y.length ≤ n := by
        simp only [List.length_cons] at hlen hm
        omega
      have ihy := ih y hy
      rw [rewriteL_eq_of_chunks bl lvl ch true _ _ _ x hch]
      cases hb : isWordChar c with
      | false =>
        rw [hb] at hcls
        rw [rwChunk_nonword]
        rw [tokensL_nonword_append x _ hne hcls]
        exact ihy
      | true =>
        rw [hb] at hcls hhead
        cases hf : should_filter_word bl lvl x with
        | false =>
          have hx : rwChunk bl lvl ch true (true, x) = x := by simp [rwChunk, hf]
          rw [hx, tokensL_word_append x _ hne hcls
            (rewriteL_headNot bl lvl ch true y hhead)]
          intro t ht
          rcases List.mem_cons.mp ht with ht | ht
          · subst ht; exact hf
          · exact ihy t ht
        | true =>
          have hx : rwChunk bl lvl ch true (true, x) = List.replicate x.length ch := by
            simp [rwChunk, hf]
          rw [hx]
          have hxlen : 0 < x.length := List.length_pos.mpr hne
          have hne2 : List.replicate x.length ch ≠ [] := by
            intro h
            have h2 := congrArg List.length h
            rw [List.length_replicate, List.length_nil] at h2
            exact hne (List.length_eq_zero.mp h2)
          have hall : ∀ a ∈ List.replicate x.length ch, isWordChar a = false := by
            intro a ha
            rw [List.eq_of_mem_replicate ha]
            exact hwc
          rw [tokensL_nonword_append _ _ hne2 hall]
          exact ihy

theorem tokensL_rewriteL_clean (bl : List String) (lvl : FilterLevel) (ch : Char)
    (hwc : isWordChar ch = false) (m : List Char) :
    ∀ t ∈ tokensL (rewriteL bl lvl ch true m), should_filter_word bl lvl t = false :=
  tokensL_rewriteL_clean_aux bl lvl ch hwc m.length m (Nat.le_refl _)

/-- A message none of whose tokens is offending is rewritten to itself. -/
theorem rewriteL_of_no_flagged (bl : List String) (lvl : FilterLevel) (ch : Char)
    (pr : Bool) (m : List Char)
    (h : ∀ t ∈ tokensL m, should_filter_word bl lvl t = false) :
    rewriteL bl lvl ch pr m = m := by
  unfold rewriteL
  have h1 : (chunks m).map (rwChunk bl lvl ch pr) = (chunks m).map Prod.snd := by
    apply List.map_congr_left
    intro p hp
    cases hb : p.1 with
    | false =>
      obtain ⟨b, t⟩ := p
      simp only at hb
      subst hb
      exact rwChunk_nonword bl lvl ch pr t
    | true =>
      have hmem : p.2 ∈ tokensL m := by
        unfold tokensL
        exact List.mem_filterMap.mpr ⟨p, hp, by rw [hb]; rfl⟩
      have hf := h p.2 hmem
      unfold rwChunk
      rw [hb, hf]
      simp
  rw [h1, chunks_flatten]

/-! ### Lemmas about the match decision -/

theorem should_filter_word_empty_bl (lvl : FilterLevel) (w : List Char) :
    should_filter_word [] lvl w = false := by
  unfold should_filter_word detect_variations
  cases lvl <;> simp

/-- A direct (LENIENT) match is also a match under any level. -/
theorem should_filter_word_mono (bl : List String) (lvl : FilterLevel) (w : List Char)
    (h : should_filter_word bl .lenient w = true) :
    should_filter_word bl lvl w = true := by
  unfold should_filter_word at h ⊢
  by_cases he : w.isEmpty
  · rw [if_pos he] at h
    exact absurd h (by simp)
  · rw [if_neg he] at h ⊢
    by_cases hc : bl.contains (String.mk (normalizeL w)) = true
    · rw [if_pos hc]
    · rw [if_neg hc] at h
      exact absurd h (by simp)

theorem should_filter_word_no_match (bl : List String) (lvl : FilterLevel)
    (w : List Char)
    (h1 : bl.contains (String.mk (normalizeL w)) = false)
    (h2 : detect_variations bl w = false) :
    should_filter_word bl lvl w = false := by
  unfold should_filter_word
  rw [h1]
  cases lvl <;> simp [h2]

/-! ### Lemmas about the engine operations -/

theorem mkEngine_curse_words_of_error (src : LoadSource) (lvl : FilterLevel)
    (err : String) (h : load_curse_words src = .error err) :
    (mkEngine src lvl).curse_words = [] := by
  unfold mkEngine
  rw [h]

theorem detect_inappropriate_words_empty_bl (e : Engine)
    (h : e.curse_words = []) (msg : String) :
    detect_inappropriate_words e msg = [] := by
  unfold detect_inappropriate_words
  split
  · rfl
  · rw [h]
    have : ∀ t ∈ tokensL msg.toList, ¬ (should_filter_word [] e.filter_level t = true) := by
      intro t _
      rw [should_filter_word_empty_bl]
      simp
    rw [List.filter_eq_nil_iff.mpr this]
    rfl

/-- On a validation failure `filter_message` leaves the engine untouched. -/
theorem filter_message_error_state (e : Engine) (msg : String) (pr : Bool)
    (err : String) (e' : Engine)
    (h : filter_message e msg pr = (.error err, e')) : e' = e := by
  unfold filter_message at h
  split at h
  · injection h with h1 h2; exact h2.symm
  · split at h
    · injection h with h1 h2; exact h2.symm
    · split at h
      · injection h with h1 h2; exact h2.symm
      · injection h with h1 h2; simp at h1

/-- On success `filter_message` returns the rewrite and bumps exactly
the two counters. -/
theorem filter_message_ok_state (e : Engine) (msg : String) (pr : Bool)
    (hne : msg ≠ "") (hmax : msg.length ≤ e.max_message_length)
    (hmin : e.min_message_length ≤ msg.length) :
    filter_message e msg pr =
      (.ok (String.mk (rewriteL e.curse_words e.filter_level e.replacement_char
          pr msg.toList)),
        { e with
          total_messages_processed := e.total_messages_processed + 1
          total_words_filtered := e.total_words_filtered + flaggedCount e msg }) := by
  unfold filter_message
  rw [if_neg hne, if_neg (by omega), if_neg (by omega)]
  rfl

/-- The offending-token count only depends on the word set and the level. -/
theorem flaggedCount_congr (e e' : Engine) (msg : String)
    (hbl : e'.curse_words = e.curse_words) (hlvl : e'.filter_level = e.filter_level) :
    flaggedCount e' msg = flaggedCount e msg := by
  unfold flaggedCount
  rw [hbl, hlvl]

/-- Whatever branch `filter_message` takes, the word set and the whole
configuration are unchanged; only the two counters may move. -/
theorem filter_message_config (e : Engine) (msg : String) (pr : Bool) :
    (filter_message e msg pr).2.curse_words = e.curse_words ∧
    (filter_message e msg pr).2.filter_level = e.filter_level ∧
    (filter_message e msg pr).2.replacement_char = e.replacement_char ∧
    (filter_message e msg pr).2.max_message_length = e.max_message_length ∧
    (filter_message e msg pr).2.min_message_length = e.min_message_length := by
  unfold filter_message
  split
  · exact ⟨rfl, rfl, rfl, rfl, rfl⟩
  · split
    · exact ⟨rfl, rfl, rfl, rfl, rfl⟩
    · split
      · exact ⟨rfl, rfl, rfl, rfl, rfl⟩
      · exact ⟨rfl, rfl, rfl, rfl, rfl⟩

/-- A successful call moves the counters by one message and by the
offending-token count. -/
theorem filter_message_ok_counters (e : Engine) (msg : String) (pr : Bool)
    (t : String) (e' : Engine) (h : filter_message e msg pr = (.ok t, e')) :
    e'.total_messages_processed = e.total_messages_processed + 1 ∧
    e'.total_words_filtered = e.total_words_filtered + flaggedCount e msg ∧
    e'.curse_words = e.curse_words ∧ e'.filter_level = e.filter_level := by
  unfold filter_message at h
  split at h
  · injection h with h1 h2; simp at h1
  · split at h
    · injection h with h1 h2; simp at h1
    · split at h
      · injection h with h1 h2; simp at h1
      · injection h with h1 h2
        subst h2
        exact ⟨rfl, rfl, rfl, rfl⟩

/-- Running a batch of successful calls adds the batch length to the
message counter and the summed offending counts to the word counter. -/
theorem runFilters_counters :
    ∀ (msgs : List (String × Bool)) (e e' : Engine),
      runFilters e msgs = some e' →
      e'.total_messages_processed = e.total_messages_processed + msgs.length ∧
      e'.total_words_filtered =
        e.total_words_filtered + (msgs.map (fun p => flaggedCount e p.1)).sum ∧
      e'.curse_words = e.curse_words ∧ e'.filter_level = e.filter_level := by
  intro msgs
  induction msgs with
  | nil =>
    intro e e' h
    unfold runFilters at h
    injection h with h
    subst h
    exact ⟨by simp, by simp, rfl, rfl⟩
  | cons p rest ih =>
    intro e e' h
    unfold runFilters at h
    obtain ⟨m, b⟩ := p
    cases hf : filter_message e m b with
    | mk r e1 =>
      rw [hf] at h
      cases r with
      | error err => simp at h
      | ok t =>
        have hstep := filter_message_ok_counters e m b t e1 hf
        have hrest := ih e1 e' h
        refine ⟨?_, ?_, ?_, ?_⟩
        · rw [hrest.1, hstep.1, List.length_cons]
          omega
        · have hcong : ∀ q ∈ rest, flaggedCount e1 q.1 = flaggedCount e q.1 := by
            intro q _
            exact flaggedCount_congr e e1 q.1 hstep.2.2.1 hstep.2.2.2
          have hmapeq : rest.map (fun q => flaggedCount e1 q.1) =
              rest.map (fun q => flaggedCount e q.1) := List.map_congr_left hcong
          rw [hrest.2.1, hstep.2.1, hmapeq, List.map_cons, List.sum_cons]
          dsimp only
          omega
        · rw [hrest.2.2.1, hstep.2.2.1]
        · rw [hrest.2.2.2, hstep.2.2.2]

/-! ### Character arithmetic lemmas -/

theorem toNat_ofNat_of_lt (n : Nat) (h : n < 55296) : (Char.ofNat n).toNat = n := by
  have hv : Nat.isValidChar n := Or.inl h
  unfold Char.ofNat
  rw [dif_pos hv]
  rfl

theorem char_eq_of_toNat_eq (a b : Char) (h : a.toNat = b.toNat) : a = b :=
  Char.ext (UInt32.toNat.inj h)

theorem pyToLower_toNat (c : Char) :
    (pyToLower c).toNat =
      if 65 ≤ c.toNat ∧ c.toNat ≤ 90 then c.toNat + 32 else c.toNat := by
  unfold pyToLower
  split
  · next hc => exact toNat_ofNat_of_lt _ (by omega)
  · rfl

theorem pyToLower_idem (c : Char) : pyToLower (pyToLower c) = pyToLower c := by
  apply char_eq_of_toNat_eq
  have h := pyToLower_toNat c
  rw [pyToLower_toNat (pyToLower c)]
  by_cases hc : 65 ≤ c.toNat ∧ c.toNat ≤ 90
  · rw [if_pos hc] at h
    rw [h, if_neg (by omega)]
  · rw [if_neg hc] at h
    rw [h, if_neg hc]

theorem isPySpace_pyToLower (c : Char) : isPySpace (pyToLower c) = isPySpace c := by
  have h := pyToLower_toNat c
  unfold isPySpace
  rw [h]
  split
  · next hc =>
    rw [Bool.eq_iff_iff]
    simp only [Bool.or_eq_true, beq_iff_eq]
    omega
  · rfl

theorem isAsciiLetter_pyToLower (c : Char) :
    isAsciiLetter (pyToLower c) = isAsciiLetter c := by
  have h := pyToLower_toNat c
  unfold isAsciiLetter isAsciiUpper isAsciiLower
  rw [h]
  split
  · next hc =>
    rw [Bool.eq_iff_iff]
    simp only [Bool.or_eq_true, Bool.and_eq_true, decide_eq_true_eq]
    omega
  · rfl

/-- The normalizer of the source (lowercase, then keep ASCII letters)
agrees with the normalizer described by the spec (keep ASCII letters,
then lowercase). -/
theorem normalizeL_eq_refNormalize (w : List Char) : normalizeL w = refNormalize w := by
  unfold normalizeL refNormalize
  rw [List.filter_map]
  have : (isAsciiLetter ∘ pyToLower) = isAsciiLetter := by
    funext c
    exact isAsciiLetter_pyToLower c
  rw [this]

/-! ### Lemmas about Python strip and lower -/

theorem dropWhile_idem (p : Char → Bool) (l : List Char) :
    List.dropWhile p (List.dropWhile p l) = List.dropWhile p l := by
  induction l with
  | nil => rfl
  | cons c cs ih =>
    by_cases hc : p c
    · rw [List.dropWhile_cons_of_pos hc, ih]
    · rw [List.dropWhile_cons_of_neg hc, List.dropWhile_cons_of_neg hc]

theorem stripEnd_idem (l : List Char) : stripEnd (stripEnd l) = stripEnd l := by
  unfold stripEnd
  rw [List.reverse_reverse, dropWhile_idem]

theorem dropWhile_stripEnd (l : List Char)
    (h : List.dropWhile isPySpace l = l) :
    List.dropWhile isPySpace (stripEnd l) = stripEnd l := by
  cases l with
  | nil => rfl
  | cons c cs =>
    have hc : isPySpace c = false := by
      cases hp : isPySpace c
      · rfl
      · rw [List.dropWhile_cons_of_pos hp] at h
        have := congrArg List.length h
        have hle := (List.dropWhile_sublist (l := cs) isPySpace).length_le
        simp only [List.length_cons] at this
        omega
    unfold stripEnd
    rw [List.reverse_cons, List.dropWhile_append]
    split
    · simp [List.dropWhile_cons, hc]
    · rw [List.reverse_append]
      simp only [List.reverse_cons, List.reverse_nil, List.nil_append,
        List.singleton_append]
      rw [List.dropWhile_cons_of_neg (by rw [hc]; simp)]

theorem pyStripL_idem (l : List Char) : pyStripL (pyStripL l) = pyStripL l := by
  unfold pyStripL
  rw [dropWhile_stripEnd _ (dropWhile_idem _ _), stripEnd_idem]

theorem mem_of_mem_stripEnd (a : Char) (l : List Char) (h : a ∈ stripEnd l) :
    a ∈ l := by
  unfold stripEnd at h
  rw [List.mem_reverse] at h
  rw [← List.mem_reverse]
  exact (List.dropWhile_sublist _).mem h

theorem mem_of_mem_pyStripL (a : Char) (l : List Char) (h : a ∈ pyStripL l) :
    a ∈ l := by
  unfold pyStripL at h
  exact (List.dropWhile_sublist _).mem (mem_of_mem_stripEnd a _ h)

/-- Python `lower().strip()` is idempotent: its outputs are exactly the
lowercase whitespace-trimmed strings. -/
theorem pyLowerStrip_idem (s : String) :
    pyLowerStrip (pyLowerStrip s) = pyLowerStrip s := by
  unfold pyLowerStrip
  have htl : (String.mk (pyStripL (s.toList.map pyToLower))).toList =
      pyStripL (s.toList.map pyToLower) := rfl
  rw [htl]
  have hmap : (pyStripL (s.toList.map pyToLower)).map pyToLower =
      pyStripL (s.toList.map pyToLower) := by
    have hfix : ∀ a ∈ pyStripL (s.toList.map pyToLower), pyToLower a = a := by
      intro a ha
      have : a ∈ s.toList.map pyToLower := mem_of_mem_pyStripL a _ ha
      obtain ⟨b, _, hb⟩ := List.mem_map.mp this
      rw [← hb]
      exact pyToLower_idem b
    calc (pyStripL (s.toList.map pyToLower)).map pyToLower
        = (pyStripL (s.toList.map pyToLower)).map id := List.map_congr_left hfix
      _ = pyStripL (s.toList.map pyToLower) := List.map_id _
  rw [hmap, pyStripL_idem]

/-! ### The stored-word invariant -/

theorem load_curse_words_normalized (src : LoadSource) (ws : List String)
    (h : load_curse_words src = .ok ws) : ∀ w ∈ ws, pyLowerStrip w = w := by
  cases src with
  | missing => simp [load_curse_words] at h
  | malformed => simp [load_curse_words] at h
  | doc j =>
    cases j with
    | str s => simp [load_curse_words] at h
    | int n => simp [load_curse_words] at h
    | bool b => simp [load_curse_words] at h
    | null => simp [load_curse_words] at h
    | list xs =>
      simp only [load_curse_words] at h
      split at h
      · exact absurd h (by simp)
      · injection h with h
        subst h
        intro w hw
        unfold loadEntries at hw
        rw [List.mem_dedup] at hw
        obtain ⟨j', _, hj⟩ := List.mem_map.mp hw
        rw [← hj]
        exact pyLowerStrip_idem _
    | dict kvs =>
      simp only [load_curse_words] at h
      cases hk : findListKey kvs with
      | some xs =>
        simp only [hk] at h
        split at h
        · exact absurd h (by simp)
        · injection h with h
          subst h
          intro w hw
          unfold loadEntries at hw
          rw [List.mem_dedup] at hw
          obtain ⟨j', _, hj⟩ := List.mem_map.mp hw
          rw [← hj]
          exact pyLowerStrip_idem _
      | none =>
        simp only [hk] at h
        split at h
        · exact absurd h (by simp)
        · injection h with h
          subst h
          intro w hw
          rw [List.mem_dedup] at hw
          obtain ⟨k, _, hj⟩ := List.mem_map.mp hw
          rw [← hj]
          exact pyLowerStrip_idem _

/-- Every word in a reachable curse-word set is a fixed point of
`lower().strip()`: it is lowercase and carries no surrounding
whitespace. -/
theorem reachableBL_normalized (bl : List String) (h : ReachableBL bl) :
    ∀ w ∈ bl, pyLowerStrip w = w := by
  induction h with
  | load src lvl =>
    intro w hw
    unfold mkEngine at hw
    simp only at hw
    cases hl : load_curse_words src with
    | ok ws =>
      rw [hl] at hw
      exact load_curse_words_normalized src ws hl w hw
    | error err =>
      rw [hl] at hw
      simp at hw
  | add bl w ok bl' hbl hadd ih =>
    unfold addWordBL at hadd
    split at hadd
    · exact absurd hadd (by simp)
    · dsimp only at hadd
      split at hadd
      · injection hadd with hadd
        injection hadd with h1 h2
        subst h2
        exact ih
      · injection hadd with hadd
        injection hadd with h1 h2
        subst h2
        intro v hv
        rcases List.mem_append.mp hv with hv | hv
        · exact ih v hv
        · rw [List.mem_singleton] at hv
          subst hv
          exact pyLowerStrip_idem _
  | remove bl w hbl ih =>
    unfold removeWordBL
    split
    · exact ih
    · dsimp only
      split
      · intro v hv
        simp only at hv
        exact ih v (List.mem_of_mem_filter hv)
      · exact ih

/-! ### The spec scenarios and claims -/

/-- The scenario engine: BlockList loaded from a two-word list,
MODERATE strictness, default replacement character. -/
def scenarioEngine : Engine :=
  mkEngine (.doc (.list [.str "suka", .str "blyat"])) .moderate

/-- The scenario engine with "damn" also blocked. -/
def scenarioEngineDamn : Engine :=
  mkEngine (.doc (.list [.str "suka", .str "blyat", .str "damn"])) .moderate

/-- C1: with BlockList suka, blyat and MODERATE strictness (replacement
character the default star, preserve_length true),
detect_inappropriate_words of "Salom suka qalesan blyat" is exactly
the list [suka, blyat] in that order, and filter_message of the same
message masks the two words with four and five stars. -/
theorem C1_scenario :
    scenarioEngine.curse_words = ["suka", "blyat"] ∧
    scenarioEngine.filter_level = FilterLevel.moderate ∧
    scenarioEngine.replacement_char = '*' ∧
    detect_inappropriate_words scenarioEngine "Salom suka qalesan blyat" =
      ["suka", "blyat"] ∧
    (filter_message scenarioEngine "Salom suka qalesan blyat" true).1 =
      .ok "Salom **** qalesan *****" :=
  ⟨by decide, rfl, rfl, by decide, rfl⟩

/-- C2: with "damn" in the BlockList, the token "D4mn" of
"D4mn th1s 1s b4d" is flagged under MODERATE (its substitution table
image, normalized, is "damn"), and is not flagged under LENIENT. -/
theorem C2_variations :
    scenarioEngineDamn.curse_words = ["suka", "blyat", "damn"] ∧
    String.mk (normalizeL (applySubsts ("D4mn".toList.map pyToLower))) = "damn" ∧
    should_filter_word scenarioEngineDamn.curse_words .moderate "D4mn".toList = true ∧
    detect_inappropriate_words scenarioEngineDamn "D4mn th1s 1s b4d" = ["D4mn"] ∧
    should_filter_word scenarioEngineDamn.curse_words .lenient "D4mn".toList = false ∧
    detect_inappropriate_words (set_filter_level scenarioEngineDamn .lenient)
      "D4mn th1s 1s b4d" = [] :=
  ⟨by decide, by decide, by decide, by decide, by decide, by decide⟩

/-- C3: whenever loading fails the engine keeps an empty BlockList (no
default words); the empty document with a words key fails with a load
error; any engine with an empty BlockList detects nothing and reports
every message clean, in particular the scenario engine after the failed
load reports "blyat" clean. -/
theorem C3_empty_on_failure :
    (∀ (src : LoadSource) (lvl : FilterLevel) (err : String),
      load_curse_words src = .error err → (mkEngine src lvl).curse_words = []) ∧
    load_curse_words (.doc (.dict [("words", .list [])])) =
      .error "No curse words found in file" ∧
    (mkEngine (.doc (.dict [("words", .list [])])) .moderate).curse_words = [] ∧
    (∀ (e : Engine), e.curse_words = [] → ∀ msg : String,
      detect_inappropriate_words e msg = [] ∧ isCleanMessage e msg = true) ∧
    isCleanMessage (mkEngine (.doc (.dict [("words", .list [])])) .moderate)
      "blyat" = true := by
  refine ⟨mkEngine_curse_words_of_error, rfl, rfl, ?_, rfl⟩
  intro e he msg
  have hd := detect_inappropriate_words_empty_bl e he msg
  refine ⟨hd, ?_⟩
  unfold isCleanMessage
  rw [hd]
  rfl

/-- Witness for C3 at a concrete failed load and message. -/
theorem C3_empty_on_failure_witness :
    (mkEngine .missing .moderate).curse_words = [] ∧
    detect_inappropriate_words (mkEngine .missing .moderate) "blyat" = [] ∧
    isCleanMessage (mkEngine .missing .moderate) "blyat" = true := by
  refine ⟨C3_empty_on_failure.1 .missing .moderate "Curse words file not found" rfl,
    ?_, ?_⟩
  · exact (C3_empty_on_failure.2.2.2.1 (mkEngine .missing .moderate) rfl "blyat").1
  · exact (C3_empty_on_failure.2.2.2.1 (mkEngine .missing .moderate) rfl "blyat").2

/-- C4: a valid message none of whose tokens matches directly or through
the substitution table is returned unchanged by filter_message, and
is_message_clean is true. -/
theorem C4_clean_unchanged (e : Engine) (msg : String) (pr : Bool)
    (hne : msg ≠ "") (hmax : msg.length ≤ e.max_message_length)
    (hmin : e.min_message_length ≤ msg.length)
    (htok : ∀ t ∈ tokensL msg.toList,
      e.curse_words.contains (String.mk (normalizeL t)) = false ∧
      detect_variations e.curse_words t = false) :
    (filter_message e msg pr).1 = .ok msg ∧ isCleanMessage e msg = true := by
  have hsf : ∀ t ∈ tokensL msg.toList,
      should_filter_word e.curse_words e.filter_level t = false :=
    fun t ht => should_filter_word_no_match _ _ t (htok t ht).1 (htok t ht).2
  have hfil : (tokensL msg.toList).filter
      (should_filter_word e.curse_words e.filter_level) = [] :=
    List.filter_eq_nil_iff.mpr (fun t ht => by rw [hsf t ht]; simp)
  constructor
  · rw [filter_message_ok_state e msg pr hne hmax hmin]
    simp only
    rw [rewriteL_of_no_flagged _ _ _ _ _ hsf]
    rfl
  · unfold isCleanMessage detect_inappropriate_words
    rw [if_neg hne, hfil]
    rfl

/-- Witness for C4 on a clean two-token message. -/
theorem C4_clean_unchanged_witness :
    (filter_message scenarioEngine "Salom dunyo" true).1 = .ok "Salom dunyo" ∧
    isCleanMessage scenarioEngine "Salom dunyo" = true := by
  exact C4_clean_unchanged scenarioEngine "Salom dunyo" true (by decide)
    (by decide) (by decide) (by decide)

/-- C5: every token flagged under LENIENT is flagged under MODERATE and
under STRICT, for the same BlockList and message. -/
theorem C5_strictness_mono (e : Engine) (msg : String) (t : String)
    (h : t ∈ detect_inappropriate_words (set_filter_level e .lenient) msg) :
    t ∈ detect_inappropriate_words (set_filter_level e .moderate) msg ∧
    t ∈ detect_inappropriate_words (set_filter_level e .strict) msg := by
  unfold detect_inappropriate_words set_filter_level at h ⊢
  by_cases hm : msg = ""
  · rw [if_pos hm] at h
    simp at h
  · simp only [if_neg hm] at h ⊢
    obtain ⟨tl, htl, rfl⟩ := List.mem_map.mp h
    obtain ⟨hmem, hsf⟩ := List.mem_filter.mp htl
    constructor
    · exact List.mem_map.mpr ⟨tl,
        List.mem_filter.mpr ⟨hmem, should_filter_word_mono _ _ _ hsf⟩, rfl⟩
    · exact List.mem_map.mpr ⟨tl,
        List.mem_filter.mpr ⟨hmem, should_filter_word_mono _ _ _ hsf⟩, rfl⟩

/-- Witness for C5 at a direct match. -/
theorem C5_strictness_mono_witness :
    "suka" ∈ detect_inappropriate_words (set_filter_level scenarioEngine .lenient)
      "ok suka" ∧
    "suka" ∈ detect_inappropriate_words (set_filter_level scenarioEngine .moderate)
      "ok suka" ∧
    "suka" ∈ detect_inappropriate_words (set_filter_level scenarioEngine .strict)
      "ok suka" := by
  have h : "suka" ∈ detect_inappropriate_words
      (set_filter_level scenarioEngine .lenient) "ok suka" := by decide
  exact ⟨h, (C5_strictness_mono scenarioEngine "ok suka" "suka" h).1,
    (C5_strictness_mono scenarioEngine "ok suka" "suka" h).2⟩

/-- C10: whenever filter_message raises a validation error the engine is
returned with every field unchanged. -/
theorem C10_error_unchanged (e : Engine) (msg : String) (pr : Bool)
    (err : String) (e' : Engine)
    (h : filter_message e msg pr = (.error err, e')) : e' = e :=
  filter_message_error_state e msg pr err e' h

/-- Witness for C10 at the empty message. -/
theorem C10_error_unchanged_witness :
    (filter_message scenarioEngine "" true).2 = scenarioEngine :=
  C10_error_unchanged scenarioEngine "" true
    "Message must be a non-empty string" _ rfl

/-- The empty curse-word set is reachable: it is the state after any
failed load. -/
theorem reachableBL_nil : ReachableBL [] :=
  (show (mkEngine LoadSource.missing FilterLevel.moderate).curse_words = []
    from rfl) ▸ ReachableBL.load LoadSource.missing FilterLevel.moderate

/-- C7 counterexample: adding "d4mn" stores "d4mn" itself — a word with
a digit, not letters-only — and adding an all-whitespace word stores the
empty string; both states are reachable through the engine's own
operations, so the claimed non-empty letters-only invariant fails. -/
theorem C7_counterexample :
    ReachableBL ["d4mn", ""] ∧
    "d4mn" ∈ (["d4mn", ""] : List String) ∧
    "d4mn".toList.all isAsciiLetter = false ∧
    "" ∈ (["d4mn", ""] : List String) := by
  refine ⟨?_, by decide, by decide, by decide⟩
  have h1 : ReachableBL ["d4mn"] :=
    ReachableBL.add [] "d4mn" true ["d4mn"] reachableBL_nil rfl
  exact ReachableBL.add ["d4mn"] "   " true ["d4mn", ""] h1 rfl

/-- C7 (amended): every word stored in a reachable BlockList is a fixed
point of Python lower-strip — lowercase, with no surrounding whitespace —
after construction and preserved by load, add_curse_word and
remove_curse_word; add_curse_word fails with a validation error on empty
input. The stored words need not be letters-only or non-empty. -/
theorem C7_blocklist_invariant :
    (∀ bl : List String, ReachableBL bl → ∀ w ∈ bl, pyLowerStrip w = w) ∧
    (∀ bl : List String, addWordBL bl "" =
      .error "Word must be a non-empty string") := by
  refine ⟨reachableBL_normalized, ?_⟩
  intro bl
  rfl

/-- Witness for C7 at a concrete reachable one-word set. -/
theorem C7_blocklist_invariant_witness :
    pyLowerStrip "d4mn" = "d4mn" ∧
    addWordBL [] "" = .error "Word must be a non-empty string" := by
  have h1 : ReachableBL ["d4mn"] :=
    ReachableBL.add [] "d4mn" true ["d4mn"] reachableBL_nil rfl
  exact ⟨C7_blocklist_invariant.1 ["d4mn"] h1 "d4mn" (by decide),
    C7_blocklist_invariant.2 []⟩

/-- C8 counterexample: the BlockList containing only the empty string is
reachable (add an all-whitespace word), and then the token "123", whose
normalized form is empty, is judged offending; the reachable BlockList
containing only "a" judges the token "4" offending under MODERATE even
though its normalized form is empty (the substitution table turns "4"
into "a"). -/
theorem C8_counterexample :
    (ReachableBL [""] ∧ normalize_word "123" = "" ∧
      should_filter_word [""] FilterLevel.moderate "123".toList = true) ∧
    (ReachableBL ["a"] ∧ normalize_word "4" = "" ∧
      should_filter_word ["a"] FilterLevel.moderate "4".toList = true) := by
  refine ⟨⟨?_, by decide, by decide⟩, ⟨?_, by decide, by decide⟩⟩
  · exact ReachableBL.add [] "   " true [""] reachableBL_nil rfl
  · exact ReachableBL.add [] "a" true ["a"] reachableBL_nil rfl

/-- C8 (amended): the source normalizer equals the reference
strip-non-letters-then-lowercase function (it is a pure total function
by construction); and a token whose normalized form and whose
substitution-then-normalized form are both empty is never judged
offending, for every BlockList not containing the empty string and every
strictness. For BlockLists containing the empty string, or tokens whose
substitution image normalizes to a blocked word, the original claim
fails. -/
theorem C8_normalizer :
    (∀ w : List Char, normalizeL w = refNormalize w) ∧
    (∀ (bl : List String) (lvl : FilterLevel) (w : List Char),
      bl.contains "" = false → normalizeL w = [] →
      normalizeL (applySubsts (w.map pyToLower)) = [] →
      should_filter_word bl lvl w = false) := by
  refine ⟨normalizeL_eq_refNormalize, ?_⟩
  intro bl lvl w hbl h1 h2
  unfold should_filter_word
  by_cases he : w.isEmpty
  · rw [if_pos he]
  · rw [if_neg he]
    have hm1 : String.mk (normalizeL w) = "" := by rw [h1]
    have hm2 : String.mk (normalizeL (applySubsts (w.map pyToLower))) = "" := by
      rw [h2]
    rw [hm1, hbl]
    simp only [Bool.false_eq_true, if_false]
    cases lvl with
    | strict => unfold detect_variations; rw [hm2, hbl]
    | moderate => unfold detect_variations; rw [hm2, hbl]
    | lenient => rfl

/-- Witness for C8 at an all-symbol token. -/
theorem C8_normalizer_witness :
    normalizeL "D4mn!".toList = refNormalize "D4mn!".toList ∧
    (["suka"] : List String).contains "" = false ∧
    normalizeL "###".toList = [] ∧
    normalizeL (applySubsts ("###".toList.map pyToLower)) = [] ∧
    should_filter_word ["suka"] FilterLevel.moderate "###".toList = false := by
  refine ⟨C8_normalizer.1 _, by decide, by decide, by decide, ?_⟩
  exact C8_normalizer.2 ["suka"] .moderate "###".toList (by decide) (by decide)
    (by decide)

/-- C9: from freshly reset statistics, N successful filter_message calls
flagging K tokens in total leave total_messages_processed at N and
total_words_filtered at K; and one get_filter_report call on a valid
non-empty message moves the two counters by exactly one and by the
number of detected offending words. -/
theorem C9_counters :
    (∀ (e : Engine) (msgs : List (String × Bool)) (e' : Engine),
      runFilters (reset_statistics e) msgs = some e' →
      e'.total_messages_processed = msgs.length ∧
      e'.total_words_filtered = (msgs.map (fun p => flaggedCount e p.1)).sum) ∧
    (∀ (e : Engine) (msg : String),
      msg ≠ "" → msg.length ≤ e.max_message_length →
      e.min_message_length ≤ msg.length →
      (get_filter_report e msg).2.total_messages_processed =
        e.total_messages_processed + 1 ∧
      (get_filter_report e msg).2.total_words_filtered =
        e.total_words_filtered + (detect_inappropriate_words e msg).length) := by
  constructor
  · intro e msgs e' h
    have hr := runFilters_counters msgs (reset_statistics e) e' h
    have hmapeq : msgs.map (fun p => flaggedCount (reset_statistics e) p.1) =
        msgs.map (fun p => flaggedCount e p.1) :=
      List.map_congr_left (fun p _ => flaggedCount_congr e (reset_statistics e) p.1
        rfl rfl)
    constructor
    · rw [hr.1]
      simp [reset_statistics]
    · rw [hr.2.1, hmapeq]
      simp [reset_statistics]
  · intro e msg hne hmax hmin
    unfold get_filter_report
    rw [if_neg hne, filter_message_ok_state e msg true hne hmax hmin]
    dsimp only
    have hdet : (detect_inappropriate_words e msg).length = flaggedCount e msg := by
      unfold detect_inappropriate_words flaggedCount
      rw [if_neg hne, List.length_map, ← List.countP_eq_length_filter]
    exact ⟨rfl, by rw [hdet]⟩

/-- The engine state after one successful scenario filtering call. -/
def scenarioRunResult : Engine :=
  { filter_level := .moderate
    curse_words := ["suka", "blyat"]
    replacement_char := '*'
    max_message_length := 1000
    min_message_length := 1
    total_messages_processed := 1
    total_words_filtered := 1 }

/-- Witness for C9 on a one-call batch and a concrete report. -/
theorem C9_counters_witness :
    scenarioRunResult.total_messages_processed = 1 ∧
    scenarioRunResult.total_words_filtered = 1 ∧
    (get_filter_report scenarioEngine "Salom suka").2.total_messages_processed =
      scenarioEngine.total_messages_processed + 1 ∧
    (get_filter_report scenarioEngine "Salom suka").2.total_words_filtered =
      scenarioEngine.total_words_filtered +
        (detect_inappropriate_words scenarioEngine "Salom suka").length := by
  have h1 := C9_counters.1 scenarioEngine [("Salom suka", true)] scenarioRunResult rfl
  have h2 := C9_counters.2 scenarioEngine "Salom suka" (by decide) (by decide)
    (by decide)
  exact ⟨h1.1, h1.2, h2.1, h2.2⟩

/-- An engine whose replacement character is the letter a and whose
BlockList holds the non-empty letters-only word "aaaa": a legal
configuration (set_replacement_char accepts any single character). -/
def letterReplacementEngine : Engine :=
  { filter_level := .moderate
    curse_words := ["aaaa"]
    replacement_char := 'a'
    max_message_length := 1000
    min_message_length := 1
    total_messages_processed := 0
    total_words_filtered := 0 }

/-- C6 counterexample: with the letter a as replacement character and
the letters-only BlockList containing "aaaa", the once-filtered text of
"aaaa" is "aaaa" itself, which still contains an offending token — so
the filtered text is not free of offending tokens (the text is
nevertheless a fixed point of filtering). -/
theorem C6_counterexample :
    letterReplacementEngine.curse_words = ["aaaa"] ∧
    "aaaa".toList.all isAsciiLetter = true ∧
    letterReplacementEngine.replacement_char = 'a' ∧
    (filter_message letterReplacementEngine "aaaa" true).1 = .ok "aaaa" ∧
    detect_inappropriate_words letterReplacementEngine "aaaa" = ["aaaa"] ∧
    isCleanMessage letterReplacementEngine "aaaa" = false :=
  ⟨rfl, by decide, rfl, rfl, by decide, by decide⟩

/-- C6 (amended): for every valid message and every configuration,
filtering the once-filtered text again (preserve_length true) returns
that text unchanged; and when the replacement character is not a word
character the once-filtered text contains no offending tokens. When the
replacement character is a word character offending tokens can survive
in the filtered text (see the counterexample), though the text is still
a fixed point. -/
theorem C6_idempotent :
    (∀ (e : Engine) (msg t1 : String) (e1 : Engine),
      msg ≠ "" → msg.length ≤ e.max_message_length →
      e.min_message_length ≤ msg.length →
      filter_message e msg true = (.ok t1, e1) →
      (filter_message e1 t1 true).1 = .ok t1) ∧
    (∀ (e : Engine) (msg t1 : String) (e1 : Engine),
      isWordChar e.replacement_char = false →
      filter_message e msg true = (.ok t1, e1) →
      detect_inappropriate_words e1 t1 = []) := by
  constructor
  · intro e msg t1 e1 hne hmax hmin h
    rw [filter_message_ok_state e msg true hne hmax hmin] at h
    injection h with h1 h2
    injection h1 with h1
    subst h1
    subst h2
    have hLlen : (String.mk (rewriteL e.curse_words e.filter_level
        e.replacement_char true msg.toList)).length = msg.length :=
      rewriteL_length e.curse_words e.filter_level e.replacement_char msg.toList
    have hmsgne0 : msg.length ≠ 0 := by
      intro h0
      apply hne
      have hdata : msg.data = [] := List.length_eq_zero.mp h0
      cases msg with
      | mk data =>
        simp only at hdata
        subst hdata
        rfl
    have ht1ne : String.mk (rewriteL e.curse_words e.filter_level
        e.replacement_char true msg.toList) ≠ "" := by
      intro hcon
      have hc := congrArg String.length hcon
      rw [hLlen] at hc
      exact hmsgne0 hc
    have hmax2 : (String.mk (rewriteL e.curse_words e.filter_level
        e.replacement_char true msg.toList)).length ≤
        ({ e with
          total_messages_processed := e.total_messages_processed + 1
          total_words_filtered := e.total_words_filtered + flaggedCount e msg
          : Engine }).max_message_length := by
      rw [hLlen]
      exact hmax
    have hmin2 : ({ e with
          total_messages_processed := e.total_messages_processed + 1
          total_words_filtered := e.total_words_filtered + flaggedCount e msg
          : Engine }).min_message_length ≤
        (String.mk (rewriteL e.curse_words e.filter_level
          e.replacement_char true msg.toList)).length := by
      rw [hLlen]
      exact hmin
    rw [filter_message_ok_state _ _ true ht1ne hmax2 hmin2]
    show Except.ok (String.mk (rewriteL e.curse_words e.filter_level
        e.replacement_char true (rewriteL e.curse_words e.filter_level
          e.replacement_char true msg.toList))) = _
    rw [rewriteL_idem e.curse_words e.filter_level e.replacement_char msg.toList]
  · intro e msg t1 e1 hwc h
    unfold filter_message at h
    split at h
    · injection h with h1 h2; simp at h1
    · split at h
      · injection h with h1 h2; simp at h1
      · split at h
        · injection h with h1 h2; simp at h1
        · dsimp only at h
          injection h with h1 h2
          injection h1 with h1
          subst h1
          subst h2
          unfold detect_inappropriate_words
          split
          · rfl
          · dsimp only
            have hclean := tokensL_rewriteL_clean e.curse_words e.filter_level
              e.replacement_char hwc msg.toList
            have hfil : (tokensL (rewriteL e.curse_words e.filter_level
                e.replacement_char true msg.toList)).filter
                (should_filter_word e.curse_words e.filter_level) = [] :=
              List.filter_eq_nil_iff.mpr
                (fun t ht => by rw [hclean t ht]; simp)
            show List.map String.mk ((tokensL (rewriteL e.curse_words e.filter_level
                e.replacement_char true msg.toList)).filter
                (should_filter_word e.curse_words e.filter_level)) = []
            rw [hfil]
            rfl

/-- The engine state after filtering the C1 scenario message once. -/
def scenarioEngineAfter : Engine :=
  { filter_level := .moderate
    curse_words := ["suka", "blyat"]
    replacement_char := '*'
    max_message_length := 1000
    min_message_length := 1
    total_messages_processed := 1
    total_words_filtered := 2 }

/-- Witness for C6 on the C1 scenario message. -/
theorem C6_idempotent_witness :
    (filter_message scenarioEngine "Salom suka qalesan blyat" true).1 =
      .ok "Salom **** qalesan *****" ∧
    (filter_message scenarioEngineAfter "Salom **** qalesan *****" true).1 =
      .ok "Salom **** qalesan *****" ∧
    detect_inappropriate_words scenarioEngineAfter "Salom **** qalesan *****" = [] := by
  have h : filter_message scenarioEngine "Salom suka qalesan blyat" true =
      (.ok "Salom **** qalesan *****", scenarioEngineAfter) := rfl
  refine ⟨rfl, ?_, ?_⟩
  · exact C6_idempotent.1 scenarioEngine "Salom suka qalesan blyat"
      "Salom **** qalesan *****" scenarioEngineAfter (by decide) (by decide)
      (by decide) h
  · exact C6_idempotent.2 scenarioEngine "Salom suka qalesan blyat"
      "Salom **** qalesan *****" scenarioEngineAfter (by decide) h

end ChatFilter
